import Mathlib

/-!
Shallow embedding of `scripts/rpki/resource_set.py` (RFC 3779 resource
ranges and resource sets) and proofs about its algebra.

Resource values (AS numbers, IPv4/IPv6 addresses) are modelled as `Nat`;
the bounded address domains are handled by explicit width hypotheses
where a claim is about domain bounds.
-/

namespace RPKI

/-- `resource_range`: one closed interval `[min, max]` over one numeric
domain, as in the Python class `resource_range`. -/
structure resource_range where
  min : Nat
  max : Nat
deriving DecidableEq, Repr

/-- The constructor of `resource_range` asserts `min <= max`; we model the
assertion failure as `none`. -/
def mk_resource_range (mn mx : Nat) : Option resource_range :=
  if mn ≤ mx then some ⟨mn, mx⟩ else none

/-- `x` lies in the closed interval of `r`. -/
def covers (r : resource_range) (x : Nat) : Prop :=
  r.min ≤ x ∧ x ≤ r.max

instance (r : resource_range) (x : Nat) : Decidable (covers r x) :=
  decidable_of_iff (r.min ≤ x ∧ x ≤ r.max) Iff.rfl

/-- `x` is covered by some range of the list. -/
def coversSet (l : List resource_range) (x : Nat) : Prop :=
  ∃ r ∈ l, covers r x

instance (l : List resource_range) (x : Nat) : Decidable (coversSet l x) :=
  decidable_of_iff (∃ r ∈ l, covers r x) Iff.rfl

/-- The `resource_set` invariant checked by `resource_set.__init__`:
adjacent ranges satisfy `self[i].max < self[i+1].min`, and every range is a
genuine interval (`min <= max`, the `resource_range` constructor assert). -/
def wfSet (l : List resource_range) : Prop :=
  l.Chain' (fun a b => a.max < b.min) ∧ ∀ r ∈ l, r.min ≤ r.max

/-- A computation-friendly decision procedure for the adjacency chain
(the Mathlib instance is tactic-defined and does not reduce under
`decide`). -/
def decChainDisjoint :
    ∀ l : List resource_range,
      Decidable (List.Chain' (fun a b : resource_range => a.max < b.min) l)
  | [] => isTrue List.chain'_nil
  | [r] => isTrue (List.chain'_singleton r)
  | a :: b :: t =>
    match Nat.decLt a.max b.min, decChainDisjoint (b :: t) with
    | isTrue hab, isTrue ht => isTrue (List.chain'_cons.mpr ⟨hab, ht⟩)
    | isFalse hab, _ => isFalse (fun hc => hab (List.chain'_cons.mp hc).1)
    | _, isFalse ht => isFalse (fun hc => ht (List.chain'_cons.mp hc).2)

instance (l : List resource_range) :
    Decidable (List.Chain' (fun a b : resource_range => a.max < b.min) l) :=
  decChainDisjoint l

instance (l : List resource_range) : Decidable (wfSet l) :=
  decidable_of_iff
    (l.Chain' (fun a b : resource_range => a.max < b.min) ∧
      ∀ r ∈ l, r.min ≤ r.max) Iff.rfl

/-- `rsplit(rset, that)` pops the head `this` of `rset` and re-inserts two
sub-ranges; this function returns the two ranges that are inserted at the
front. -/
def rsplit (this that : resource_range) : List resource_range :=
  if this.min < that.min then
    [⟨this.min, that.min - 1⟩, ⟨that.min, this.max⟩]
  else
    [⟨this.min, that.max⟩, ⟨that.max + 1, this.max⟩]

/-- Number of integer points of a range (clipped at 1 for degenerate
ranges); used only as a termination measure. -/
def pts (r : resource_range) : Nat := r.max - r.min + 1

/-- Total point count of a list of ranges (termination measure). -/
def ptsList : List resource_range → Nat
  | [] => 0
  | r :: t => pts r + ptsList t

/-- Point count of the head of a list (termination measure). -/
def headPts : List resource_range → Nat
  | [] => 0
  | r :: _ => pts r

theorem ptsList_append (l1 l2 : List resource_range) :
    ptsList (l1 ++ l2) = ptsList l1 + ptsList l2 := by
  induction l1 with
  | nil => simp [ptsList]
  | cons r t ih => simp [ptsList, ih]; omega

/-- The working loop of `resource_set.comm`: consumes the two working
lists from the front, producing (only-in-first, only-in-second, in-both).
Each branch matches one `if`/`elif` arm of the Python `while` loop. -/
def commAux (s1 s2 : List resource_range) :
    List resource_range × List resource_range × List resource_range :=
  match s1, s2 with
  | [], [] => ([], [], [])
  | r1 :: t1, [] =>
    let p := commAux t1 []
    (r1 :: p.1, p.2.1, p.2.2)
  | [], r2 :: t2 =>
    let p := commAux [] t2
    (p.1, r2 :: p.2.1, p.2.2)
  | r1 :: t1, r2 :: t2 =>
    if h1 : r1.max < r2.min then
      let p := commAux t1 (r2 :: t2)
      (r1 :: p.1, p.2.1, p.2.2)
    else if h2 : r2.max < r1.min then
      let p := commAux (r1 :: t1) t2
      (p.1, r2 :: p.2.1, p.2.2)
    else if h3 : r1.min < r2.min then
      commAux (rsplit r1 r2 ++ t1) (r2 :: t2)
    else if h4 : r2.min < r1.min then
      commAux (r1 :: t1) (rsplit r2 r1 ++ t2)
    else if h5 : r1.max < r2.max then
      commAux (r1 :: t1) (rsplit r2 r1 ++ t2)
    else if h6 : r2.max < r1.max then
      commAux (rsplit r1 r2 ++ t1) (r2 :: t2)
    else
      let p := commAux t1 t2
      (p.1, p.2.1, r1 :: p.2.2)
termination_by (ptsList s1 + ptsList s2, headPts s1 + headPts s2)
decreasing_by
  all_goals simp_wf
  all_goals simp only [Prod.lex_def]
  all_goals try unfold rsplit
  all_goals try split
  all_goals simp [List.cons_append, List.nil_append, ptsList_append,
    ptsList, headPts, pts]
  all_goals omega

/-- `resource_range.__cmp__`: compare by `min`, then by `max`. This Boolean
relation is the "less or equal" order used to model Python's `list.sort`. -/
def rangeLE (a b : resource_range) : Bool :=
  a.min < b.min || (a.min == b.min && a.max ≤ b.max)

/-- The `self.sort()` step of `resource_set.__init__`. -/
def sortRanges (l : List resource_range) : List resource_range :=
  l.mergeSort rangeLE

/-- The tail of `resource_set.__init__`: sort the collected ranges, then
assert `self[i].max < self[i+1].min` for every adjacent pair.  The
assertion failure is modelled as `none`. -/
def initRanges (l : List resource_range) : Option (List resource_range) :=
  let s := sortRanges l
  if s.Chain' (fun a b => a.max < b.min) then some s else none

/-- `resource_set.comm`: run the working loop, then build the three result
sets through the `resource_set` constructor (`type(self)(only1)` etc.). -/
def comm (s1 s2 : List resource_range) :
    Option (List resource_range × List resource_range × List resource_range) :=
  let p := commAux s1 s2
  match initRanges p.1, initRanges p.2.1, initRanges p.2.2 with
  | some a, some b, some c => some (a, b, c)
  | _, _, _ => none

/-- The working loop of `resource_set.union`: merge the two sorted lists;
when the heads overlap, pop both and emit one range spanning
`min(mins)..max(maxes)` (without re-comparing it against the new heads). -/
def unionAux : List resource_range → List resource_range → List resource_range
  | [], [] => []
  | r1 :: t1, [] => r1 :: unionAux t1 []
  | [], r2 :: t2 => r2 :: unionAux [] t2
  | r1 :: t1, r2 :: t2 =>
    if r1.max < r2.min then r1 :: unionAux t1 (r2 :: t2)
    else if r2.max < r1.min then r2 :: unionAux (r1 :: t1) t2
    else ⟨Nat.min r1.min r2.min, Nat.max r1.max r2.max⟩ :: unionAux t1 t2
termination_by s1 s2 => s1.length + s2.length
decreasing_by all_goals simp [List.length_cons] <;> omega

/-- `resource_set.union`: the merged list goes through the `resource_set`
constructor (`type(self)(result)`), which re-checks disjointness. -/
def union (s1 s2 : List resource_range) : Option (List resource_range) :=
  initRanges (unionAux s1 s2)

/-- `resource_set.intersection`: `self.comm(other)[2]`. -/
def intersection (s1 s2 : List resource_range) : Option (List resource_range) :=
  (comm s1 s2).map (fun p => p.2.2)

/-- `resource_set.difference`: `self.comm(other)[0]`. -/
def difference (s1 s2 : List resource_range) : Option (List resource_range) :=
  (comm s1 s2).map (fun p => p.1)

/-- `resource_set.symmetric_difference`: union of the two "only" parts. -/
def symmetric_difference (s1 s2 : List resource_range) :
    Option (List resource_range) :=
  (comm s1 s2).bind (fun p => union p.1 p.2.1)

/-! ### Textual form of IP ranges (`resource_range_ip.__str__`)

Addresses are modelled numerically; a rendered token keeps the shape of
the produced string: `addr/prefixlen` or `addr-addr`. -/

/-- One lexical token of the IP resource-set text grammar, with the
addresses already in numeric form. -/
inductive ip_token
  | pfx (addr plen : Nat)
  | rng (lo hi : Nat)
deriving DecidableEq, Repr

/-- The `while mask & 1: prefixlen -= 1; mask >>= 1` loop of
`resource_range_ip.__str__`; returns the final `(mask, prefixlen)`. -/
def maskLoop (mask plen : Nat) : Nat × Nat :=
  if mask % 2 = 1 then maskLoop (mask / 2) (plen - 1) else (mask, plen)
termination_by mask
decreasing_by exact Nat.div_lt_self (by omega) (by omega)

/-- `resource_range_ip.__str__` over a domain of `bits` bits: strip the
low one-bits of `min XOR max`; if anything remains render `min-max`,
otherwise render `min/prefixlen`. -/
def range_ip_str (bits : Nat) (r : resource_range) : ip_token :=
  let p := maskLoop (r.min ^^^ r.max) bits
  if p.1 ≠ 0 then .rng r.min r.max else .pfx r.min p.2

/-- `resource_set.__str__` for an IP set: render every range. -/
def set_ip_str (bits : Nat) (l : List resource_range) : List ip_token :=
  l.map (range_ip_str bits)

/-- `resource_set_ip.parse_str` on one already-lexed token:
a `lo-hi` token becomes the range `[lo, hi]`; an `addr/plen` token is
checked against `mask = (1 << (bits - plen)) - 1` — nonzero low bits are
a fatal non-canonical-input assertion (`none`) — and otherwise becomes
`[addr, addr | mask]`.  `mk_resource_range` carries the `min <= max`
assertion of the `resource_range` constructor. -/
def parse_ip_token (bits : Nat) (t : ip_token) : Option resource_range :=
  match t with
  | .rng lo hi => mk_resource_range lo hi
  | .pfx addr plen =>
    let mask := (1 <<< (bits - plen)) - 1
    if addr &&& mask ≠ 0 then none
    else mk_resource_range addr (addr ||| mask)

/-- Constructing a `resource_set_ip` from a token list (the result of
splitting the textual form on `","`): parse every token, then sort and
check the invariant. -/
def resource_set_ip_of_tokens (bits : Nat) (toks : List ip_token) :
    Option (List resource_range) :=
  (toks.mapM (parse_ip_token bits)).bind initRanges

/-! ### AS text parsing and the constructor dispatch -/

/-- `resource_set_as.parse_str` on one comma-separated token: `N-M` or a
single `N` (decimal). -/
def parse_as_token (x : String) : Option resource_range :=
  match x.splitOn "-" with
  | [a, b] =>
    match a.toNat?, b.toNat? with
    | some n, some m => mk_resource_range n m
    | _, _ => none
  | [a] =>
    match a.toNat? with
    | some n => mk_resource_range n n
    | _ => none
  | _ => none

/-- One entry of the decoded `sbgp-autonomousSysNum` extension tuple:
`("range", (lo, hi))` or `("id", n)`. -/
inductive as_entry
  | range (lo hi : Nat)
  | single (n : Nat)
deriving DecidableEq, Repr

/-- `resource_set_as.parse_tuple`: the variant tag must be
`"asIdsOrRanges"` (the RFC 3779 "inherit" form is asserted away, i.e.
fails); each entry becomes one range. -/
def parse_tuple_as (tag : String) (entries : List as_entry) :
    Option (List resource_range) :=
  if tag = "asIdsOrRanges" then
    entries.mapM (fun e =>
      match e with
      | .range lo hi => mk_resource_range lo hi
      | .single n => mk_resource_range n n)
  else none

/-- One entry of a decoded `sbgp-ipAddrBlock` family: an address range as
a pair of bit strings, or a prefix as one bit string. -/
inductive ip_entry
  | addressRange (bs1 bs2 : List Nat)
  | addressPrefix (bs : List Nat)
deriving DecidableEq, Repr

/-- `bs2long`: fold a bit string into a number. -/
def bs2long (bs : List Nat) : Nat :=
  bs.foldl (fun x y => (x <<< 1) ||| y) 0

/-- One iteration of the loop in `resource_set_ip.parse_tuple`.  (In the
`addressRange` arm the source first computes `max` from the second bit
string and then overwrites it with `min | mask`; only the live value is
modelled.) -/
def parse_ip_entry (bits : Nat) (e : ip_entry) : Option resource_range :=
  match e with
  | .addressRange bs1 bs2 =>
    let mn := bs2long bs1 <<< (bits - bs1.length)
    let mask := (1 <<< (bits - bs2.length)) - 1
    mk_resource_range mn (mn ||| mask)
  | .addressPrefix bs =>
    let mn := bs2long bs <<< (bits - bs.length)
    let mask := (1 <<< (bits - bs.length)) - 1
    if mn &&& mask ≠ 0 then none
    else mk_resource_range mn (mn ||| mask)

/-- `resource_set_ip.parse_tuple`: the variant tag must be
`"addressesOrRanges"` (the "inherit" form is asserted away). -/
def parse_tuple_ip (bits : Nat) (tag : String) (entries : List ip_entry) :
    Option (List resource_range) :=
  if tag = "addressesOrRanges" then entries.mapM (parse_ip_entry bits)
  else none

/-- The possible `ini` arguments of `resource_set.__init__` (for the AS
domain): `None`, a string, a decoded extension tuple, or a list of
ranges. -/
inductive as_ini
  | noArg
  | fromStr (s : String)
  | fromTuple (tag : String) (entries : List as_entry)
  | fromRanges (l : List resource_range)

/-- `resource_set_as.__init__`: a non-empty string is split on `","` and
parsed; a tuple goes through `parse_tuple`; a list is taken as is; `None`
gives the empty set.  An empty string matches none of these arms and hits
the final `assert ini is None`, a construction failure.  Afterwards the
collected ranges are sorted and the disjointness invariant is checked. -/
def resource_set_as_init : as_ini → Option (List resource_range)
  | .fromStr s =>
    if s.length ≠ 0 then ((s.splitOn ",").mapM parse_as_token).bind initRanges
    else none
  | .fromTuple tag es => (parse_tuple_as tag es).bind initRanges
  | .fromRanges l => initRanges l
  | .noArg => initRanges []

/-- `resource_set_ipv4`/`ipv6` construction from a decoded extension
tuple, ending in the same sort-and-check step. -/
def resource_set_ip_init_tuple (bits : Nat) (tag : String)
    (entries : List ip_entry) : Option (List resource_range) :=
  (parse_tuple_ip bits tag entries).bind initRanges

/-- Fuel-indexed variant of the `comm` working loop, one fuel unit per
iteration of the Python `while` loop; `none` means the fuel ran out.
Used to state that the loop terminates within an explicit bound. -/
def commFuel : Nat → List resource_range → List resource_range →
    Option (List resource_range × List resource_range × List resource_range)
  | 0, _, _ => none
  | fuel + 1, s1, s2 =>
    match s1, s2 with
    | [], [] => some ([], [], [])
    | r1 :: t1, [] =>
      (commFuel fuel t1 []).map fun p => (r1 :: p.1, p.2.1, p.2.2)
    | [], r2 :: t2 =>
      (commFuel fuel [] t2).map fun p => (p.1, r2 :: p.2.1, p.2.2)
    | r1 :: t1, r2 :: t2 =>
      if r1.max < r2.min then
        (commFuel fuel t1 (r2 :: t2)).map fun p => (r1 :: p.1, p.2.1, p.2.2)
      else if r2.max < r1.min then
        (commFuel fuel (r1 :: t1) t2).map fun p => (p.1, r2 :: p.2.1, p.2.2)
      else if r1.min < r2.min then commFuel fuel (rsplit r1 r2 ++ t1) (r2 :: t2)
      else if r2.min < r1.min then commFuel fuel (r1 :: t1) (rsplit r2 r1 ++ t2)
      else if r1.max < r2.max then commFuel fuel (r1 :: t1) (rsplit r2 r1 ++ t2)
      else if r2.max < r1.max then commFuel fuel (rsplit r1 r2 ++ t1) (r2 :: t2)
      else (commFuel fuel t1 t2).map fun p => (p.1, p.2.1, r1 :: p.2.2)

/-- Explicit iteration bound for the `comm` loop, in terms of the total
point count and the head sizes of the two working lists. -/
def commBound (s1 s2 : List resource_range) : Nat :=
  (ptsList s1 + ptsList s2 + 1) * (ptsList s1 + ptsList s2 + 1) +
    headPts s1 + headPts s2

/-! ### Basic lemmas about coverage and the set invariant -/

theorem coversSet_nil (x : Nat) : ¬ coversSet [] x := by
  simp [coversSet]

theorem coversSet_cons {r : resource_range} {t : List resource_range}
    {x : Nat} : coversSet (r :: t) x ↔ covers r x ∨ coversSet t x := by
  simp [coversSet]

theorem wfSet_nil : wfSet [] := by
  constructor <;> simp

theorem wfSet_cons {r : resource_range} {t : List resource_range}
    (h : wfSet (r :: t)) : wfSet t :=
  ⟨h.1.tail, fun r' hr' => h.2 r' (List.mem_cons_of_mem _ hr')⟩

theorem wfSet_head_lt {r : resource_range} {t : List resource_range}
    (h : wfSet (r :: t)) : ∀ r' ∈ t, r.max < r'.min := by
  induction t generalizing r with
  | nil => simp
  | cons b t' ih =>
    intro r' hr'
    have hrb : r.max < b.min := (List.chain'_cons.mp h.1).1
    have hb : wfSet (b :: t') := wfSet_cons h
    rcases List.mem_cons.mp hr' with rfl | hmem
    · exact hrb
    · have h1 := ih hb r' hmem
      have h2 : b.min ≤ b.max := h.2 b (by simp)
      omega

theorem not_coversSet_of_lt_min {l : List resource_range} {x : Nat}
    (h : ∀ r ∈ l, x < r.min) : ¬ coversSet l x := by
  rintro ⟨r, hr, hc⟩
  exact absurd hc.1 (by have := h r hr; omega)

/-- A point covered by the head of a well-formed set is not covered by
its tail, and a point covered past the head exceeds `head.max`. -/
theorem coversSet_tail_min {r : resource_range} {t : List resource_range}
    (h : wfSet (r :: t)) {x : Nat} (hx : coversSet t x) : r.max < x := by
  obtain ⟨r', hr', hc⟩ := hx
  have := wfSet_head_lt h r' hr'
  have := hc.1
  omega

/-! ### `rsplit` preserves coverage and the invariant -/

theorem rsplit_low_eq {r1 r2 : resource_range} (h : r1.min < r2.min) :
    rsplit r1 r2 = [⟨r1.min, r2.min - 1⟩, ⟨r2.min, r1.max⟩] := by
  simp [rsplit, h]

theorem rsplit_high_eq {r1 r2 : resource_range} (h : ¬ r1.min < r2.min) :
    rsplit r1 r2 = [⟨r1.min, r2.max⟩, ⟨r2.max + 1, r1.max⟩] := by
  simp [rsplit, h]

theorem coversSet_rsplit_low {r1 r2 : resource_range}
    {t1 : List resource_range} {x : Nat}
    (hlt : r1.min < r2.min) (hle : r2.min ≤ r1.max) :
    coversSet (rsplit r1 r2 ++ t1) x ↔ coversSet (r1 :: t1) x := by
  simp only [rsplit_low_eq hlt, List.cons_append, List.nil_append,
    coversSet_cons]
  by_cases hP : coversSet t1 x <;> simp [hP, covers] <;> omega

theorem coversSet_rsplit_high {r1 r2 : resource_range}
    {t1 : List resource_range} {x : Nat}
    (hge : ¬ r1.min < r2.min) (hle : r1.min ≤ r2.max) (hmx : r2.max < r1.max) :
    coversSet (rsplit r1 r2 ++ t1) x ↔ coversSet (r1 :: t1) x := by
  simp only [rsplit_high_eq hge, List.cons_append, List.nil_append,
    coversSet_cons]
  by_cases hP : coversSet t1 x <;> simp [hP, covers] <;> omega

theorem wfSet_rsplit_low {r1 r2 : resource_range} {t1 : List resource_range}
    (h : wfSet (r1 :: t1)) (hlt : r1.min < r2.min) (hle : r2.min ≤ r1.max) :
    wfSet (rsplit r1 r2 ++ t1) := by
  rw [rsplit_low_eq hlt]
  constructor
  · refine List.chain'_cons.mpr ⟨by simp; omega, List.chain'_cons'.mpr ⟨?_, h.1.tail⟩⟩
    intro y hy
    cases t1 with
    | nil => simp at hy
    | cons b t' =>
      simp at hy
      subst hy
      exact (List.chain'_cons.mp h.1).1
  · intro r hr
    simp at hr
    rcases hr with rfl | rfl | hmem
    · simp; omega
    · simp; omega
    · exact h.2 r (List.mem_cons_of_mem _ hmem)

theorem wfSet_rsplit_high {r1 r2 : resource_range} {t1 : List resource_range}
    (h : wfSet (r1 :: t1)) (hge : ¬ r1.min < r2.min) (hle : r1.min ≤ r2.max)
    (hmx : r2.max < r1.max) :
    wfSet (rsplit r1 r2 ++ t1) := by
  rw [rsplit_high_eq hge]
  constructor
  · refine List.chain'_cons.mpr ⟨by simp, List.chain'_cons'.mpr ⟨?_, h.1.tail⟩⟩
    intro y hy
    cases t1 with
    | nil => simp at hy
    | cons b t' =>
      simp at hy
      subst hy
      have := (List.chain'_cons.mp h.1).1
      simp; omega
  · intro r hr
    simp at hr
    rcases hr with rfl | rfl | hmem
    · simp; omega
    · simp; omega
    · exact h.2 r (List.mem_cons_of_mem _ hmem)

/-! ### Branch equations of `commAux` -/

theorem commAux_nil_nil : commAux [] [] = ([], [], []) := by
  rw [commAux.eq_def]

theorem commAux_cons_nil (r1 : resource_range) (t1 : List resource_range) :
    commAux (r1 :: t1) [] =
      (r1 :: (commAux t1 []).1, (commAux t1 []).2.1, (commAux t1 []).2.2) := by
  rw [commAux.eq_def]

theorem commAux_nil_cons (r2 : resource_range) (t2 : List resource_range) :
    commAux [] (r2 :: t2) =
      ((commAux [] t2).1, r2 :: (commAux [] t2).2.1, (commAux [] t2).2.2) := by
  rw [commAux.eq_def]

theorem commAux_pop1 {r1 r2 : resource_range} (t1 t2 : List resource_range)
    (h1 : r1.max < r2.min) :
    commAux (r1 :: t1) (r2 :: t2) =
      (r1 :: (commAux t1 (r2 :: t2)).1, (commAux t1 (r2 :: t2)).2.1,
        (commAux t1 (r2 :: t2)).2.2) := by
  rw [commAux.eq_def]; simp [h1]

theorem commAux_pop2 {r1 r2 : resource_range} (t1 t2 : List resource_range)
    (h1 : ¬ r1.max < r2.min) (h2 : r2.max < r1.min) :
    commAux (r1 :: t1) (r2 :: t2) =
      ((commAux (r1 :: t1) t2).1, r2 :: (commAux (r1 :: t1) t2).2.1,
        (commAux (r1 :: t1) t2).2.2) := by
  rw [commAux.eq_def]; simp [h1, h2]

theorem commAux_split1_low {r1 r2 : resource_range} (t1 t2 : List resource_range)
    (h1 : ¬ r1.max < r2.min) (h2 : ¬ r2.max < r1.min) (h3 : r1.min < r2.min) :
    commAux (r1 :: t1) (r2 :: t2) = commAux (rsplit r1 r2 ++ t1) (r2 :: t2) := by
  rw [commAux.eq_def]; simp [h1, h2, h3]

theorem commAux_split2_low {r1 r2 : resource_range} (t1 t2 : List resource_range)
    (h1 : ¬ r1.max < r2.min) (h2 : ¬ r2.max < r1.min) (h3 : ¬ r1.min < r2.min)
    (h4 : r2.min < r1.min) :
    commAux (r1 :: t1) (r2 :: t2) = commAux (r1 :: t1) (rsplit r2 r1 ++ t2) := by
  rw [commAux.eq_def]; simp [h1, h2, h3, h4]

theorem commAux_split2_high {r1 r2 : resource_range} (t1 t2 : List resource_range)
    (h1 : ¬ r1.max < r2.min) (h2 : ¬ r2.max < r1.min) (h3 : ¬ r1.min < r2.min)
    (h4 : ¬ r2.min < r1.min) (h5 : r1.max < r2.max) :
    commAux (r1 :: t1) (r2 :: t2) = commAux (r1 :: t1) (rsplit r2 r1 ++ t2) := by
  rw [commAux.eq_def]; simp [h1, h2, h3, h4, h5]

theorem commAux_split1_high {r1 r2 : resource_range} (t1 t2 : List resource_range)
    (h1 : ¬ r1.max < r2.min) (h2 : ¬ r2.max < r1.min) (h3 : ¬ r1.min < r2.min)
    (h4 : ¬ r2.min < r1.min) (h5 : ¬ r1.max < r2.max) (h6 : r2.max < r1.max) :
    commAux (r1 :: t1) (r2 :: t2) = commAux (rsplit r1 r2 ++ t1) (r2 :: t2) := by
  rw [commAux.eq_def]; simp [h1, h2, h3, h4, h5, h6]

theorem commAux_both {r1 r2 : resource_range} (t1 t2 : List resource_range)
    (h1 : ¬ r1.max < r2.min) (h2 : ¬ r2.max < r1.min) (h3 : ¬ r1.min < r2.min)
    (h4 : ¬ r2.min < r1.min) (h5 : ¬ r1.max < r2.max) (h6 : ¬ r2.max < r1.max) :
    commAux (r1 :: t1) (r2 :: t2) =
      ((commAux t1 t2).1, (commAux t1 t2).2.1, r1 :: (commAux t1 t2).2.2) := by
  rw [commAux.eq_def]; simp [h1, h2, h3, h4, h5, h6]

/-- A point below the head's `min` of a well-formed set is not covered. -/
theorem not_coversSet_cons_of_lt {r : resource_range}
    {t : List resource_range} (hw : wfSet (r :: t)) {x : Nat}
    (hx : x < r.min) : ¬ coversSet (r :: t) x := by
  refine not_coversSet_of_lt_min ?_
  intro r' hr'
  rcases List.mem_cons.mp hr' with rfl | hmem
  · exact hx
  · have h1 := wfSet_head_lt hw r' hmem
    have h2 : r.min ≤ r.max := hw.2 r (by simp)
    omega

set_option maxHeartbeats 1000000 in
/-- Coverage specification of the `comm` working loop: on well-formed
inputs, the "only in first" output covers exactly the points of the first
input not covered by the second, symmetrically for "only in second", and
the "both" output covers exactly the common points. -/
theorem commAux_cov : ∀ s1 s2 : List resource_range, wfSet s1 → wfSet s2 →
    ∀ x : Nat,
    (coversSet (commAux s1 s2).1 x ↔ coversSet s1 x ∧ ¬ coversSet s2 x) ∧
    (coversSet (commAux s1 s2).2.1 x ↔ coversSet s2 x ∧ ¬ coversSet s1 x) ∧
    (coversSet (commAux s1 s2).2.2 x ↔ coversSet s1 x ∧ coversSet s2 x) := by
  intro s1 s2
  induction s1, s2 using commAux.induct with
  | case1 =>
    intro _ _ x
    simp [commAux_nil_nil, coversSet_nil]
  | case2 r1 t1 ih =>
    intro hw1 hw2 x
    obtain ⟨c1, c2, c3⟩ := ih (wfSet_cons hw1) hw2 x
    clear ih
    rw [commAux_cons_nil]
    simp only [coversSet_cons, c1, c2, c3]
    clear hw1 hw2
    have hnil := coversSet_nil x
    refine ⟨?_, ?_, ?_⟩ <;> tauto
  | case3 r2 t2 ih =>
    intro hw1 hw2 x
    obtain ⟨c1, c2, c3⟩ := ih hw1 (wfSet_cons hw2) x
    clear ih
    rw [commAux_nil_cons]
    simp only [coversSet_cons, c1, c2, c3]
    clear hw1 hw2
    have hnil := coversSet_nil x
    refine ⟨?_, ?_, ?_⟩ <;> tauto
  | case4 r1 t1 r2 t2 h1 ih =>
    intro hw1 hw2 x
    obtain ⟨c1, c2, c3⟩ := ih (wfSet_cons hw1) hw2 x
    clear ih
    have hno : covers r1 x → ¬ coversSet (r2 :: t2) x := fun hc =>
      not_coversSet_cons_of_lt hw2 (by have := hc.2; omega)
    rw [commAux_pop1 t1 t2 h1]
    simp only [coversSet_cons] at hno ⊢
    simp only [c1, c2, c3, coversSet_cons]
    clear hw1 hw2
    refine ⟨?_, ?_, ?_⟩ <;> tauto
  | case5 r1 t1 r2 t2 h1 h2 ih =>
    intro hw1 hw2 x
    obtain ⟨c1, c2, c3⟩ := ih hw1 (wfSet_cons hw2) x
    clear ih
    have hno : covers r2 x → ¬ coversSet (r1 :: t1) x := fun hc =>
      not_coversSet_cons_of_lt hw1 (by have := hc.2; omega)
    rw [commAux_pop2 t1 t2 h1 h2]
    simp only [coversSet_cons] at hno ⊢
    simp only [c1, c2, c3, coversSet_cons]
    clear hw1 hw2
    refine ⟨?_, ?_, ?_⟩ <;> tauto
  | case6 r1 t1 r2 t2 h1 h2 h3 ih =>
    intro hw1 hw2 x
    have hle : r2.min ≤ r1.max := by omega
    obtain ⟨c1, c2, c3⟩ := ih (wfSet_rsplit_low hw1 h3 hle) hw2 x
    have hcov := @coversSet_rsplit_low r1 r2 t1 x h3 hle
    rw [commAux_split1_low t1 t2 h1 h2 h3]
    refine ⟨?_, ?_, ?_⟩ <;> simp only [c1, c2, c3, hcov]
  | case7 r1 t1 r2 t2 h1 h2 h3 h4 ih =>
    intro hw1 hw2 x
    have hle : r1.min ≤ r2.max := by omega
    obtain ⟨c1, c2, c3⟩ := ih hw1 (wfSet_rsplit_low hw2 h4 hle) x
    have hcov := @coversSet_rsplit_low r2 r1 t2 x h4 hle
    rw [commAux_split2_low t1 t2 h1 h2 h3 h4]
    refine ⟨?_, ?_, ?_⟩ <;> simp only [c1, c2, c3, hcov]
  | case8 r1 t1 r2 t2 h1 h2 h3 h4 h5 ih =>
    intro hw1 hw2 x
    have hle : r2.min ≤ r1.max := by omega
    obtain ⟨c1, c2, c3⟩ := ih hw1 (wfSet_rsplit_high hw2 h4 hle h5) x
    have hcov := @coversSet_rsplit_high r2 r1 t2 x h4 hle h5
    rw [commAux_split2_high t1 t2 h1 h2 h3 h4 h5]
    refine ⟨?_, ?_, ?_⟩ <;> simp only [c1, c2, c3, hcov]
  | case9 r1 t1 r2 t2 h1 h2 h3 h4 h5 h6 ih =>
    intro hw1 hw2 x
    have hle : r1.min ≤ r2.max := by omega
    obtain ⟨c1, c2, c3⟩ := ih (wfSet_rsplit_high hw1 h3 hle h6) hw2 x
    have hcov := @coversSet_rsplit_high r1 r2 t1 x h3 hle h6
    rw [commAux_split1_high t1 t2 h1 h2 h3 h4 h5 h6]
    refine ⟨?_, ?_, ?_⟩ <;> simp only [c1, c2, c3, hcov]
  | case10 r1 t1 r2 t2 h1 h2 h3 h4 h5 h6 ih =>
    intro hw1 hw2 x
    obtain ⟨c1, c2, c3⟩ := ih (wfSet_cons hw1) (wfSet_cons hw2) x
    have he1 : r1.min = r2.min := by omega
    have he2 : r1.max = r2.max := by omega
    have hrr : covers r1 x ↔ covers r2 x := by simp [covers, he1, he2]
    have hA : coversSet t1 x → ¬ covers r2 x := fun h => by
      have := coversSet_tail_min hw1 h
      simp only [covers]
      omega
    have hB : coversSet t2 x → ¬ covers r1 x := fun h => by
      have := coversSet_tail_min hw2 h
      simp only [covers]
      omega
    clear ih
    rw [commAux_both t1 t2 h1 h2 h3 h4 h5 h6]
    simp only [coversSet_cons, c1, c2, c3]
    clear hw1 hw2
    refine ⟨?_, ?_, ?_⟩ <;> tauto

/-- Extending a well-formed set with a new head is well-formed when every
covered point of the tail lies strictly above the head's `max`. -/
theorem wfSet_cons_of_bound {r : resource_range} {l : List resource_range}
    (hw : wfSet l) (hv : r.min ≤ r.max)
    (hb : ∀ y : Nat, coversSet l y → r.max < y) : wfSet (r :: l) := by
  constructor
  · refine List.chain'_cons'.mpr ⟨?_, hw.1⟩
    intro h0 hh0
    cases l with
    | nil => simp at hh0
    | cons a t =>
      simp at hh0
      subst hh0
      have hav : a.min ≤ a.max := hw.2 a (by simp)
      exact hb a.min ⟨a, by simp, le_refl _, hav⟩
  · intro r' hr'
    rcases List.mem_cons.mp hr' with rfl | hmem
    · exact hv
    · exact hw.2 r' hmem

/-- The three outputs of the `comm` working loop are themselves
well-formed resource sets. -/
theorem commAux_wf : ∀ s1 s2 : List resource_range, wfSet s1 → wfSet s2 →
    wfSet (commAux s1 s2).1 ∧ wfSet (commAux s1 s2).2.1 ∧
      wfSet (commAux s1 s2).2.2 := by
  intro s1 s2
  induction s1, s2 using commAux.induct with
  | case1 =>
    intro _ _
    simp [commAux_nil_nil, wfSet_nil]
  | case2 r1 t1 ih =>
    intro hw1 hw2
    obtain ⟨w1, w2, w3⟩ := ih (wfSet_cons hw1) hw2
    rw [commAux_cons_nil]
    refine ⟨?_, w2, w3⟩
    refine wfSet_cons_of_bound w1 (hw1.2 r1 (by simp)) ?_
    intro y hy
    have hc := (commAux_cov t1 [] (wfSet_cons hw1) hw2 y).1.mp hy
    exact coversSet_tail_min hw1 hc.1
  | case3 r2 t2 ih =>
    intro hw1 hw2
    obtain ⟨w1, w2, w3⟩ := ih hw1 (wfSet_cons hw2)
    rw [commAux_nil_cons]
    refine ⟨w1, ?_, w3⟩
    refine wfSet_cons_of_bound w2 (hw2.2 r2 (by simp)) ?_
    intro y hy
    have hc := (commAux_cov [] t2 hw1 (wfSet_cons hw2) y).2.1.mp hy
    exact coversSet_tail_min hw2 hc.1
  | case4 r1 t1 r2 t2 h1 ih =>
    intro hw1 hw2
    obtain ⟨w1, w2, w3⟩ := ih (wfSet_cons hw1) hw2
    rw [commAux_pop1 t1 t2 h1]
    refine ⟨?_, w2, w3⟩
    refine wfSet_cons_of_bound w1 (hw1.2 r1 (by simp)) ?_
    intro y hy
    have hc := (commAux_cov t1 (r2 :: t2) (wfSet_cons hw1) hw2 y).1.mp hy
    exact coversSet_tail_min hw1 hc.1
  | case5 r1 t1 r2 t2 h1 h2 ih =>
    intro hw1 hw2
    obtain ⟨w1, w2, w3⟩ := ih hw1 (wfSet_cons hw2)
    rw [commAux_pop2 t1 t2 h1 h2]
    refine ⟨w1, ?_, w3⟩
    refine wfSet_cons_of_bound w2 (hw2.2 r2 (by simp)) ?_
    intro y hy
    have hc := (commAux_cov (r1 :: t1) t2 hw1 (wfSet_cons hw2) y).2.1.mp hy
    exact coversSet_tail_min hw2 hc.1
  | case6 r1 t1 r2 t2 h1 h2 h3 ih =>
    intro hw1 hw2
    rw [commAux_split1_low t1 t2 h1 h2 h3]
    exact ih (wfSet_rsplit_low hw1 h3 (by omega)) hw2
  | case7 r1 t1 r2 t2 h1 h2 h3 h4 ih =>
    intro hw1 hw2
    rw [commAux_split2_low t1 t2 h1 h2 h3 h4]
    exact ih hw1 (wfSet_rsplit_low hw2 h4 (by omega))
  | case8 r1 t1 r2 t2 h1 h2 h3 h4 h5 ih =>
    intro hw1 hw2
    rw [commAux_split2_high t1 t2 h1 h2 h3 h4 h5]
    exact ih hw1 (wfSet_rsplit_high hw2 h4 (by omega) h5)
  | case9 r1 t1 r2 t2 h1 h2 h3 h4 h5 h6 ih =>
    intro hw1 hw2
    rw [commAux_split1_high t1 t2 h1 h2 h3 h4 h5 h6]
    exact ih (wfSet_rsplit_high hw1 h3 (by omega) h6) hw2
  | case10 r1 t1 r2 t2 h1 h2 h3 h4 h5 h6 ih =>
    intro hw1 hw2
    obtain ⟨w1, w2, w3⟩ := ih (wfSet_cons hw1) (wfSet_cons hw2)
    rw [commAux_both t1 t2 h1 h2 h3 h4 h5 h6]
    refine ⟨w1, w2, ?_⟩
    refine wfSet_cons_of_bound w3 (hw1.2 r1 (by simp)) ?_
    intro y hy
    have hc := (commAux_cov t1 t2 (wfSet_cons hw1) (wfSet_cons hw2) y).2.2.mp hy
    exact coversSet_tail_min hw1 hc.1

/-! ### The constructor tail: sorting and the disjointness assertion -/

theorem rangeLE_trans (a b c : resource_range) :
    rangeLE a b → rangeLE b c → rangeLE a c := by
  simp [rangeLE]
  omega

theorem rangeLE_total (a b : resource_range) :
    rangeLE a b || rangeLE b a := by
  simp [rangeLE]
  omega

theorem wfSet_pairwise_lt {l : List resource_range} (h : wfSet l) :
    l.Pairwise (fun a b => a.max < b.min) := by
  induction l with
  | nil => simp
  | cons r t ih =>
    exact List.pairwise_cons.mpr ⟨wfSet_head_lt h, ih (wfSet_cons h)⟩

theorem wfSet_pairwise_le {l : List resource_range} (h : wfSet l) :
    l.Pairwise (fun a b => rangeLE a b) := by
  refine (wfSet_pairwise_lt h).imp_of_mem ?_
  intro a b ha _ hab
  have hv : a.min ≤ a.max := h.2 a ha
  simp [rangeLE]
  omega

/-- Sorting an already well-formed set leaves it unchanged. -/
theorem sortRanges_of_wf {l : List resource_range} (h : wfSet l) :
    sortRanges l = l :=
  List.mergeSort_of_sorted (wfSet_pairwise_le h)

/-- The constructor accepts a well-formed list unchanged. -/
theorem initRanges_of_wf {l : List resource_range} (h : wfSet l) :
    initRanges l = some l := by
  unfold initRanges
  rw [sortRanges_of_wf h]
  simp [h.1]

/-- What a successful construction guarantees: the result is the
mergesort of the input (hence a sorted permutation of it) and passes the
adjacent-disjointness check. -/
theorem initRanges_some {l s : List resource_range}
    (h : initRanges l = some s) :
    s = sortRanges l ∧ s.Pairwise (fun a b => rangeLE a b) ∧
      s.Chain' (fun a b => a.max < b.min) ∧ s.Perm l := by
  unfold initRanges at h
  by_cases hc : (sortRanges l).Chain' (fun a b => a.max < b.min)
  · simp [hc] at h
    subst h
    exact ⟨rfl, List.sorted_mergeSort rangeLE_trans rangeLE_total l, hc,
      List.mergeSort_perm l rangeLE⟩
  · simp [hc] at h

/-- Two ranges that share at least one point. -/
def rangesOverlap (a b : resource_range) : Prop :=
  a.min ≤ b.max ∧ b.min ≤ a.max

instance (a b : resource_range) : Decidable (rangesOverlap a b) :=
  decidable_of_iff (a.min ≤ b.max ∧ b.min ≤ a.max) Iff.rfl

/-- If the supplied ranges are genuine intervals and two of them overlap,
the constructor's disjointness assertion fires and construction fails. -/
theorem initRanges_none_of_overlap {l : List resource_range}
    (hv : ∀ r ∈ l, r.min ≤ r.max)
    (hov : ¬ l.Pairwise (fun a b => ¬ rangesOverlap a b)) :
    initRanges l = none := by
  cases he : initRanges l with
  | none => rfl
  | some s =>
    exfalso
    obtain ⟨hs, _, hchain, hperm⟩ := initRanges_some he
    have hvs : ∀ r ∈ s, r.min ≤ r.max := fun r hr =>
      hv r (hperm.mem_iff.mp hr)
    have hwf : wfSet s := ⟨hchain, hvs⟩
    have hnol : s.Pairwise (fun a b => ¬ rangesOverlap a b) :=
      (wfSet_pairwise_lt hwf).imp_of_mem (by
        intro a b ha hb hab
        have := hvs a ha
        simp [rangesOverlap]
        omega)
    have hsymm : Symmetric (fun a b : resource_range => ¬ rangesOverlap a b) := by
      intro a b hab hba
      exact hab ⟨hba.2, hba.1⟩
    exact hov ((hperm.pairwise_iff (fun h => hsymm h)).mp hnol)

/-! ### Termination of the `comm` loop within an explicit fuel bound -/

theorem headPts_le_ptsList (l : List resource_range) :
    headPts l ≤ ptsList l := by
  cases l with
  | nil => simp [headPts, ptsList]
  | cons r t => simp [headPts, ptsList]

theorem pts_pos (r : resource_range) : 1 ≤ pts r := by
  unfold pts
  omega

theorem commBound_pos (s1 s2 : List resource_range) : 1 ≤ commBound s1 s2 := by
  unfold commBound
  have := Nat.mul_pos (show 0 < ptsList s1 + ptsList s2 + 1 by omega)
    (show 0 < ptsList s1 + ptsList s2 + 1 by omega)
  omega

theorem bound_step_pop (a b m2 m2' : Nat) (hab : a + 1 ≤ b) (hm : m2' ≤ a) :
    (a + 1) * (a + 1) + m2' + 1 ≤ (b + 1) * (b + 1) + m2 := by
  have sq : (a + 1) * (a + 1) ≤ b * b := Nat.mul_le_mul hab hab
  have e : (b + 1) * (b + 1) = b * b + 2 * b + 1 := by ring
  omega

/-- The fueled loop agrees with the total function whenever the fuel is at
least the explicit bound: the `comm` loop halts within `commBound`
iterations. -/
theorem commFuel_eq : ∀ s1 s2 : List resource_range, ∀ fuel : Nat,
    commBound s1 s2 ≤ fuel → commFuel fuel s1 s2 = some (commAux s1 s2) := by
  intro s1 s2
  induction s1, s2 using commAux.induct with
  | case1 =>
    intro fuel hf
    obtain ⟨f, rfl⟩ : ∃ f, fuel = f + 1 :=
      ⟨fuel - 1, by have := commBound_pos ([] : List resource_range) []; omega⟩
    simp [commFuel, commAux_nil_nil]
  | case2 r1 t1 ih =>
    intro fuel hf
    obtain ⟨f, rfl⟩ : ∃ f, fuel = f + 1 :=
      ⟨fuel - 1, by have := commBound_pos (r1 :: t1) []; omega⟩
    have key := bound_step_pop (ptsList t1 + ptsList ([] : List resource_range))
      (ptsList (r1 :: t1) + ptsList ([] : List resource_range))
      (headPts (r1 :: t1) + headPts ([] : List resource_range))
      (headPts t1 + headPts ([] : List resource_range))
      (by simp [ptsList, pts]; omega)
      (by have := headPts_le_ptsList t1
          have := headPts_le_ptsList ([] : List resource_range)
          omega)
    have harg : commBound t1 [] ≤ f := by
      unfold commBound at hf ⊢
      omega
    simp only [commFuel]
    rw [ih f harg, commAux_cons_nil]
    rfl
  | case3 r2 t2 ih =>
    intro fuel hf
    obtain ⟨f, rfl⟩ : ∃ f, fuel = f + 1 :=
      ⟨fuel - 1, by have := commBound_pos [] (r2 :: t2); omega⟩
    have key := bound_step_pop (ptsList ([] : List resource_range) + ptsList t2)
      (ptsList ([] : List resource_range) + ptsList (r2 :: t2))
      (headPts ([] : List resource_range) + headPts (r2 :: t2))
      (headPts ([] : List resource_range) + headPts t2)
      (by simp [ptsList, pts]; omega)
      (by have := headPts_le_ptsList t2
          have := headPts_le_ptsList ([] : List resource_range)
          omega)
    have harg : commBound [] t2 ≤ f := by
      unfold commBound at hf ⊢
      omega
    simp only [commFuel]
    rw [ih f harg, commAux_nil_cons]
    rfl
  | case4 r1 t1 r2 t2 h1 ih =>
    intro fuel hf
    obtain ⟨f, rfl⟩ : ∃ f, fuel = f + 1 :=
      ⟨fuel - 1, by have := commBound_pos (r1 :: t1) (r2 :: t2); omega⟩
    have hpts : 1 ≤ pts r1 := pts_pos r1
    have hhd : headPts (r1 :: t1) = pts r1 := rfl
    have key := bound_step_pop (ptsList t1 + ptsList (r2 :: t2))
      (ptsList (r1 :: t1) + ptsList (r2 :: t2))
      (headPts (r1 :: t1) + headPts (r2 :: t2))
      (headPts t1 + headPts (r2 :: t2))
      (by simp [ptsList]; omega)
      (by have := headPts_le_ptsList t1
          have := headPts_le_ptsList (r2 :: t2)
          omega)
    have harg : commBound t1 (r2 :: t2) ≤ f := by
      unfold commBound at hf ⊢
      omega
    simp only [commFuel, if_pos h1]
    rw [ih f harg, commAux_pop1 t1 t2 h1]
    rfl
  | case5 r1 t1 r2 t2 h1 h2 ih =>
    intro fuel hf
    obtain ⟨f, rfl⟩ : ∃ f, fuel = f + 1 :=
      ⟨fuel - 1, by have := commBound_pos (r1 :: t1) (r2 :: t2); omega⟩
    have hpts : 1 ≤ pts r2 := pts_pos r2
    have hhd : headPts (r2 :: t2) = pts r2 := rfl
    have key := bound_step_pop (ptsList (r1 :: t1) + ptsList t2)
      (ptsList (r1 :: t1) + ptsList (r2 :: t2))
      (headPts (r1 :: t1) + headPts (r2 :: t2))
      (headPts (r1 :: t1) + headPts t2)
      (by simp [ptsList]; omega)
      (by have := headPts_le_ptsList t2
          have := headPts_le_ptsList (r1 :: t1)
          omega)
    have harg : commBound (r1 :: t1) t2 ≤ f := by
      unfold commBound at hf ⊢
      omega
    simp only [commFuel, if_neg h1, if_pos h2]
    rw [ih f harg, commAux_pop2 t1 t2 h1 h2]
    rfl
  | case6 r1 t1 r2 t2 h1 h2 h3 ih =>
    intro fuel hf
    obtain ⟨f, rfl⟩ : ∃ f, fuel = f + 1 :=
      ⟨fuel - 1, by have := commBound_pos (r1 :: t1) (r2 :: t2); omega⟩
    have he : ptsList (rsplit r1 r2 ++ t1) = ptsList (r1 :: t1) := by
      rw [rsplit_low_eq h3]
      simp [ptsList_append, ptsList, pts]
      omega
    have hm : headPts (rsplit r1 r2 ++ t1) + 1 ≤ headPts (r1 :: t1) := by
      rw [rsplit_low_eq h3]
      simp [headPts, pts]
      omega
    have harg : commBound (rsplit r1 r2 ++ t1) (r2 :: t2) ≤ f := by
      unfold commBound at hf ⊢
      rw [he]
      omega
    simp only [commFuel, if_neg h1, if_neg h2, if_pos h3]
    rw [ih f harg, commAux_split1_low t1 t2 h1 h2 h3]
  | case7 r1 t1 r2 t2 h1 h2 h3 h4 ih =>
    intro fuel hf
    obtain ⟨f, rfl⟩ : ∃ f, fuel = f + 1 :=
      ⟨fuel - 1, by have := commBound_pos (r1 :: t1) (r2 :: t2); omega⟩
    have he : ptsList (rsplit r2 r1 ++ t2) = ptsList (r2 :: t2) := by
      rw [rsplit_low_eq h4]
      simp [ptsList_append, ptsList, pts]
      omega
    have hm : headPts (rsplit r2 r1 ++ t2) + 1 ≤ headPts (r2 :: t2) := by
      rw [rsplit_low_eq h4]
      simp [headPts, pts]
      omega
    have harg : commBound (r1 :: t1) (rsplit r2 r1 ++ t2) ≤ f := by
      unfold commBound at hf ⊢
      rw [he]
      omega
    simp only [commFuel, if_neg h1, if_neg h2, if_neg h3, if_pos h4]
    rw [ih f harg, commAux_split2_low t1 t2 h1 h2 h3 h4]
  | case8 r1 t1 r2 t2 h1 h2 h3 h4 h5 ih =>
    intro fuel hf
    obtain ⟨f, rfl⟩ : ∃ f, fuel = f + 1 :=
      ⟨fuel - 1, by have := commBound_pos (r1 :: t1) (r2 :: t2); omega⟩
    have he : ptsList (rsplit r2 r1 ++ t2) = ptsList (r2 :: t2) := by
      rw [rsplit_high_eq h4]
      simp [ptsList_append, ptsList, pts]
      omega
    have hm : headPts (rsplit r2 r1 ++ t2) + 1 ≤ headPts (r2 :: t2) := by
      rw [rsplit_high_eq h4]
      simp [headPts, pts]
      omega
    have harg : commBound (r1 :: t1) (rsplit r2 r1 ++ t2) ≤ f := by
      unfold commBound at hf ⊢
      rw [he]
      omega
    simp only [commFuel, if_neg h1, if_neg h2, if_neg h3, if_neg h4, if_pos h5]
    rw [ih f harg, commAux_split2_high t1 t2 h1 h2 h3 h4 h5]
  | case9 r1 t1 r2 t2 h1 h2 h3 h4 h5 h6 ih =>
    intro fuel hf
    obtain ⟨f, rfl⟩ : ∃ f, fuel = f + 1 :=
      ⟨fuel - 1, by have := commBound_pos (r1 :: t1) (r2 :: t2); omega⟩
    have he : ptsList (rsplit r1 r2 ++ t1) = ptsList (r1 :: t1) := by
      rw [rsplit_high_eq h3]
      simp [ptsList_append, ptsList, pts]
      omega
    have hm : headPts (rsplit r1 r2 ++ t1) + 1 ≤ headPts (r1 :: t1) := by
      rw [rsplit_high_eq h3]
      simp [headPts, pts]
      omega
    have harg : commBound (rsplit r1 r2 ++ t1) (r2 :: t2) ≤ f := by
      unfold commBound at hf ⊢
      rw [he]
      omega
    simp only [commFuel, if_neg h1, if_neg h2, if_neg h3, if_neg h4, if_neg h5,
      if_pos h6]
    rw [ih f harg, commAux_split1_high t1 t2 h1 h2 h3 h4 h5 h6]
  | case10 r1 t1 r2 t2 h1 h2 h3 h4 h5 h6 ih =>
    intro fuel hf
    obtain ⟨f, rfl⟩ : ∃ f, fuel = f + 1 :=
      ⟨fuel - 1, by have := commBound_pos (r1 :: t1) (r2 :: t2); omega⟩
    have hpts1 : 1 ≤ pts r1 := pts_pos r1
    have hpts2 : 1 ≤ pts r2 := pts_pos r2
    have hhd1 : headPts (r1 :: t1) = pts r1 := rfl
    have hhd2 : headPts (r2 :: t2) = pts r2 := rfl
    have key := bound_step_pop (ptsList t1 + ptsList t2)
      (ptsList (r1 :: t1) + ptsList (r2 :: t2))
      (headPts (r1 :: t1) + headPts (r2 :: t2))
      (headPts t1 + headPts t2)
      (by simp [ptsList]; omega)
      (by have := headPts_le_ptsList t1
          have := headPts_le_ptsList t2
          omega)
    have harg : commBound t1 t2 ≤ f := by
      unfold commBound at hf ⊢
      omega
    simp only [commFuel, if_neg h1, if_neg h2, if_neg h3, if_neg h4, if_neg h5,
      if_neg h6]
    rw [ih f harg, commAux_both t1 t2 h1 h2 h3 h4 h5 h6]
    rfl

/-! ### Claim theorems -/

/-- C1: for every two well-formed same-domain resource sets, `comm`
returns three resource sets such that only-in-first covers exactly the
points in the first and not the second, only-in-second exactly the points
in the second and not the first, and both exactly the common points; in
particular every point covered by either input is covered by exactly one
of the three outputs. -/
theorem comm_partition (s1 s2 : List resource_range)
    (h1 : wfSet s1) (h2 : wfSet s2) :
    ∃ o1 o2 b, comm s1 s2 = some (o1, o2, b) ∧
      (∀ x : Nat,
        (coversSet o1 x ↔ coversSet s1 x ∧ ¬ coversSet s2 x) ∧
        (coversSet o2 x ↔ coversSet s2 x ∧ ¬ coversSet s1 x) ∧
        (coversSet b x ↔ coversSet s1 x ∧ coversSet s2 x)) ∧
      (∀ x : Nat, coversSet s1 x ∨ coversSet s2 x →
        (coversSet o1 x ∧ ¬ coversSet o2 x ∧ ¬ coversSet b x) ∨
        (¬ coversSet o1 x ∧ coversSet o2 x ∧ ¬ coversSet b x) ∨
        (¬ coversSet o1 x ∧ ¬ coversSet o2 x ∧ coversSet b x)) := by
  obtain ⟨w1, w2, w3⟩ := commAux_wf s1 s2 h1 h2
  refine ⟨(commAux s1 s2).1, (commAux s1 s2).2.1, (commAux s1 s2).2.2,
    ?_, commAux_cov s1 s2 h1 h2, ?_⟩
  · simp only [comm]
    rw [initRanges_of_wf w1, initRanges_of_wf w2, initRanges_of_wf w3]
  · intro x hx
    obtain ⟨c1, c2, c3⟩ := commAux_cov s1 s2 h1 h2 x
    rw [c1, c2, c3]
    tauto

/-- Witness for C1: `comm` applied to the concrete well-formed sets
`{[1,6],[11,15]}` and `{[4,12]}` succeeds. -/
theorem comm_partition_witness :
    ∃ o1 o2 b, comm [⟨1, 6⟩, ⟨11, 15⟩] [⟨4, 12⟩] = some (o1, o2, b) := by
  obtain ⟨o1, o2, b, h, -, -⟩ :=
    comm_partition [⟨1, 6⟩, ⟨11, 15⟩] [⟨4, 12⟩] (by decide) (by decide)
  exact ⟨o1, o2, b, h⟩

/-- C9: the `comm` reconciliation loop terminates: with the explicit
fuel bound `commBound`, the fueled loop completes (never returns `none`)
and agrees with the total function, for all inputs. -/
theorem comm_loop_terminates (s1 s2 : List resource_range) :
    commFuel (commBound s1 s2) s1 s2 = some (commAux s1 s2) :=
  commFuel_eq s1 s2 (commBound s1 s2) (le_refl _)

/-- C8: under the split preconditions (`this.min < that.min` in the
lower-split branch, `this.max > that.max` in the upper-split branch) the
values `that.min - 1` and `that.max + 1` computed by `rsplit` do not
underflow below 0 nor overflow above the domain maximum `W`, and every
range produced by `rsplit` stays within the domain. -/
theorem rsplit_no_wrap (this that : resource_range) (W : Nat)
    (hv1 : this.min ≤ this.max) (hv2 : that.min ≤ that.max)
    (hW1 : this.max ≤ W) (hW2 : that.max ≤ W)
    (hpre : this.min < that.min ∨ that.max < this.max) :
    (this.min < that.min → 1 ≤ that.min ∧ that.min - 1 + 1 = that.min) ∧
    (¬ this.min < that.min → that.max + 1 ≤ W) ∧
    (∀ r ∈ rsplit this that, r.min ≤ W ∧ r.max ≤ W) := by
  refine ⟨fun h => by omega, fun h => by omega, ?_⟩
  intro r hr
  unfold rsplit at hr
  by_cases h : this.min < that.min <;> simp [h] at hr <;>
    rcases hr with rfl | rfl <;> simp <;> omega

/-- Witness for C8 at a concrete lower-split and domain width. -/
theorem rsplit_no_wrap_witness :
    (1 ≤ (2 : Nat) ∧ 2 - 1 + 1 = (2 : Nat)) ∧
    (∀ r ∈ rsplit ⟨0, 10⟩ ⟨2, 5⟩, r.min ≤ 4294967295 ∧ r.max ≤ 4294967295) := by
  have h := rsplit_no_wrap ⟨0, 10⟩ ⟨2, 5⟩ 4294967295 (by decide) (by decide)
    (by decide) (by decide) (Or.inl (by decide))
  exact ⟨h.1 (by decide), h.2.2⟩

/-- C10 counterexample: the claim's "the constructor produces the empty
set only when given None or an empty list of ranges" is false of the
code: a decoded extension tuple with the `asIdsOrRanges` tag and an
empty entry sequence also constructs the empty set, and that input is
neither the no-argument form nor a list of ranges. -/
theorem init_empty_from_tuple :
    resource_set_as_init (.fromTuple "asIdsOrRanges" []) = some [] ∧
    as_ini.fromTuple "asIdsOrRanges" [] ≠ as_ini.noArg ∧
    (∀ l : List resource_range,
      as_ini.fromTuple "asIdsOrRanges" [] ≠ as_ini.fromRanges l) := by
  refine ⟨?_, by simp, fun l => by simp⟩
  have h : parse_tuple_as "asIdsOrRanges" [] = some [] := by decide
  simp only [resource_set_as_init, h, Option.some_bind]
  exact initRanges_of_wf wfSet_nil

/-- C10 (amended): constructing a resource set from the empty string
fails (the empty string matches none of the accepted construction
sources and hits the final `assert ini is None`), while `None`, an empty
list of ranges, and a decoded extension tuple with an empty entry
sequence each yield the empty set. -/
theorem init_empty_set_sources :
    resource_set_as_init (.fromStr "") = none ∧
    resource_set_as_init .noArg = some [] ∧
    resource_set_as_init (.fromRanges []) = some [] ∧
    resource_set_as_init (.fromTuple "asIdsOrRanges" []) = some [] := by
  have h : parse_tuple_as "asIdsOrRanges" [] = some [] := by decide
  refine ⟨?_, ?_, ?_, ?_⟩
  · simp [resource_set_as_init]
  · show initRanges [] = some []
    exact initRanges_of_wf wfSet_nil
  · show initRanges [] = some []
    exact initRanges_of_wf wfSet_nil
  · simp only [resource_set_as_init, h, Option.some_bind]
    exact initRanges_of_wf wfSet_nil

/-- C6: constructing a resource set from a decoded extension tuple
whose variant tag is not `"asIdsOrRanges"` (AS) resp.
`"addressesOrRanges"` (IP) — in particular the RFC 3779 "inherit"
variant — always fails; it never returns an empty or partial set. -/
theorem parse_tuple_inherit_fails :
    (∀ (tag : String) (entries : List as_entry), tag ≠ "asIdsOrRanges" →
      resource_set_as_init (.fromTuple tag entries) = none) ∧
    (∀ (bits : Nat) (tag : String) (entries : List ip_entry),
      tag ≠ "addressesOrRanges" →
      resource_set_ip_init_tuple bits tag entries = none) := by
  constructor
  · intro tag entries h
    simp [resource_set_as_init, parse_tuple_as, h]
  · intro bits tag entries h
    simp [resource_set_ip_init_tuple, parse_tuple_ip, h]

/-- Witness for C6: the "inherit" tag is rejected in both domains. -/
theorem parse_tuple_inherit_fails_witness :
    resource_set_as_init (.fromTuple "inherit" []) = none ∧
    resource_set_ip_init_tuple 32 "inherit" [] = none :=
  ⟨parse_tuple_inherit_fails.1 "inherit" [] (by decide),
   parse_tuple_inherit_fails.2 32 "inherit" [] (by decide)⟩

/-- C7: parsing a prefix token `addr/plen` fails exactly when
`addr AND ((1 << (bits - plen)) - 1) != 0`, and otherwise returns the
range `[addr, addr OR mask]`; in particular `10.0.0.1/24`
(`addr = 167772161`) is rejected. -/
theorem parse_ip_prefix_spec :
    (∀ bits addr plen : Nat,
      parse_ip_token bits (.pfx addr plen) =
        if addr &&& ((1 <<< (bits - plen)) - 1) = 0
        then some ⟨addr, addr ||| ((1 <<< (bits - plen)) - 1)⟩
        else none) ∧
    parse_ip_token 32 (.pfx 167772161 24) = none := by
  constructor
  · intro bits addr plen
    have hle : addr ≤ addr ||| ((1 <<< (bits - plen)) - 1) :=
      Nat.le_of_testBit (fun i hi => by simp [Nat.testBit_or, hi])
    by_cases h : addr &&& ((1 <<< (bits - plen)) - 1) = 0
    · simp [parse_ip_token, h, mk_resource_range, hle]
    · simp [parse_ip_token, h]
  · decide

/-- C5: every successfully constructed resource set (from text, from
a decoded extension tuple, or from a list of ranges) is sorted ascending
and its adjacent ranges satisfy `self[i].max < self[i+1].min`; and when
the supplied ranges are genuine intervals two of which overlap,
construction fails instead of returning a set violating disjointness. -/
theorem construction_invariant :
    (∀ (ini : as_ini) (s : List resource_range),
        resource_set_as_init ini = some s →
        s.Pairwise (fun a b => rangeLE a b) ∧
        s.Chain' (fun a b : resource_range => a.max < b.min)) ∧
    (∀ (bits : Nat) (toks : List ip_token) (s : List resource_range),
        resource_set_ip_of_tokens bits toks = some s →
        s.Pairwise (fun a b => rangeLE a b) ∧
        s.Chain' (fun a b : resource_range => a.max < b.min)) ∧
    (∀ l : List resource_range, (∀ r ∈ l, r.min ≤ r.max) →
        ¬ l.Pairwise (fun a b => ¬ rangesOverlap a b) →
        resource_set_as_init (.fromRanges l) = none) := by
  refine ⟨?_, ?_, ?_⟩
  · intro ini s h
    have key : ∃ l0, initRanges l0 = some s := by
      cases ini with
      | fromStr s0 =>
        by_cases hlen : s0.length ≠ 0
        · simp only [resource_set_as_init, if_pos hlen] at h
          obtain ⟨l0, -, h2⟩ := Option.bind_eq_some.mp h
          exact ⟨l0, h2⟩
        · simp only [resource_set_as_init, if_neg hlen] at h
          exact absurd h (by simp)
      | fromTuple tag es =>
        simp only [resource_set_as_init] at h
        obtain ⟨l0, -, h2⟩ := Option.bind_eq_some.mp h
        exact ⟨l0, h2⟩
      | fromRanges l => exact ⟨l, h⟩
      | noArg => exact ⟨[], h⟩
    obtain ⟨l0, h0⟩ := key
    have hp := initRanges_some h0
    exact ⟨hp.2.1, hp.2.2.1⟩
  · intro bits toks s h
    simp only [resource_set_ip_of_tokens] at h
    obtain ⟨l0, -, h2⟩ := Option.bind_eq_some.mp h
    have hp := initRanges_some h2
    exact ⟨hp.2.1, hp.2.2.1⟩
  · intro l hv hov
    show initRanges l = none
    exact initRanges_none_of_overlap hv hov

/-- Witness for C5: a successful one-range construction, and a failing
construction from two overlapping ranges. -/
theorem construction_invariant_witness :
    resource_set_as_init (.fromRanges [⟨10, 20⟩]) = some [⟨10, 20⟩] ∧
    ([⟨10, 20⟩] : List resource_range).Chain'
      (fun a b : resource_range => a.max < b.min) ∧
    resource_set_as_init (.fromRanges [⟨1, 5⟩, ⟨4, 8⟩]) = none := by
  have h : resource_set_as_init (.fromRanges [⟨10, 20⟩]) = some [⟨10, 20⟩] := by
    show initRanges _ = _
    exact initRanges_of_wf (by decide)
  exact ⟨h, (construction_invariant.1 _ _ h).2,
    construction_invariant.2.2 _ (by decide) (by decide)⟩

/-- C2: (failure of the claimed re-compare behaviour): on the valid
input sets `{[1,5],[7,10]}` and `{[4,8]}` the union loop emits the merged
head `[1,8]` without re-comparing it against the remaining head `[7,10]`,
so the merged list contains two overlapping ranges and the final
constructor invariant check fails — the claimed chain collapse into a
single range does not happen. -/
theorem union_chain_not_collapsed :
    wfSet [⟨1, 5⟩, ⟨7, 10⟩] ∧ wfSet [⟨4, 8⟩] ∧
    unionAux [⟨1, 5⟩, ⟨7, 10⟩] [⟨4, 8⟩] = [⟨1, 8⟩, ⟨7, 10⟩] ∧
    rangesOverlap ⟨1, 8⟩ ⟨7, 10⟩ ∧
    union [⟨1, 5⟩, ⟨7, 10⟩] [⟨4, 8⟩] = none := by
  have he : unionAux [⟨1, 5⟩, ⟨7, 10⟩] [⟨4, 8⟩] = [⟨1, 8⟩, ⟨7, 10⟩] := by
    simp [unionAux]
  refine ⟨by decide, by decide, he, by decide, ?_⟩
  show initRanges _ = none
  rw [he]
  exact initRanges_none_of_overlap (by decide) (by decide)

/-- C3: (failure of the claimed canonicalization rule): the interval
`[1, 2]` is not a bit-aligned block (`min XOR max = 3` is a contiguous
low-bit run, but `min AND 3 = 1 ≠ 0`), yet the renderer outputs the
prefix form `1/30` instead of the explicit range form. -/
theorem range_ip_str_not_aligned :
    range_ip_str 32 ⟨1, 2⟩ = ip_token.pfx 1 30 ∧
    (1 : Nat) ^^^ 2 = 3 ∧ (1 : Nat) &&& 3 = 1 := by
  refine ⟨?_, by decide, by decide⟩
  simp [range_ip_str, maskLoop]

/-- C4: (failure of the round-trip): the canonical range-form token
`1-2` (the interval `[1,2]` is not a block, so the range form is its
canonical rendering) parses to `[1,2]`, but serializing `[1,2]` produces
the prefix-form token `1/30`, not the original token. -/
theorem roundtrip_fails :
    resource_set_ip_of_tokens 32 [ip_token.rng 1 2] = some [⟨1, 2⟩] ∧
    set_ip_str 32 [⟨1, 2⟩] = [ip_token.pfx 1 30] ∧
    ip_token.pfx 1 30 ≠ ip_token.rng 1 2 := by
  refine ⟨?_, ?_, by decide⟩
  · have h1 : ([ip_token.rng 1 2].mapM (parse_ip_token 32)) = some [⟨1, 2⟩] := by
      decide
    simp only [resource_set_ip_of_tokens, h1, Option.some_bind]
    exact initRanges_of_wf (by decide)
  · show [range_ip_str 32 ⟨1, 2⟩] = [ip_token.pfx 1 30]
    simp [range_ip_str, maskLoop]

end RPKI
